import Mathlib

/-!
Verification of the matching/refinement/merge pipeline of `super_video_grep`
(files `segments.py`, `subtitles.py`, `asr.py`, `cli.py`).

Modelling conventions:
* Python floats (subtitle/ASR timestamps) are modelled as rationals `ℚ`;
  every claim under scrutiny concerns ordering and exact sum arithmetic on
  small decimal constants, where float and rational behaviour agree.
* Python strings are Lean `String`s / `List Char`.  `str.lower`, `str.strip`
  and the `\d`/`\s` regex classes are modelled over their ASCII behaviour
  (`Char.toLower`, `Char.isWhitespace`, ASCII digits), which is exact for all
  inputs the claims mention.
* Python `list.sort(key=...)` is a stable sort; stable sorting by a key is a
  uniquely determined function, modelled here by `List.insertionSort` on the
  same key (which is stable).
* The byte-level codecs invoked by `bytes.decode(..., errors="replace")` are
  stdlib collaborators of `subtitles._decode_bytes`; they are modelled as
  total Lean decoders producing U+FFFD for invalid sequences, and an unknown
  codec name is modelled as `Option.none` (Python `LookupError`).
* File IO (reading subtitle bytes, audio extraction, the ASR engine) is
  external; those values enter the model as explicit arguments.
-/

/-! ## segments.py : tokenizer and normalizer -/

/-- The ASCII punctuation set, `string.punctuation` in Python:
codepoints 33–47, 58–64, 91–96, 123–126. -/
def isPyPunct (c : Char) : Bool :=
  (33 ≤ c.toNat && c.toNat ≤ 47) || (58 ≤ c.toNat && c.toNat ≤ 64) ||
  (91 ≤ c.toNat && c.toNat ≤ 96) || (123 ≤ c.toNat && c.toNat ≤ 126)

/-- Python `str.strip(chars)`: drop characters satisfying `p` from both ends. -/
def pyStrip (p : Char → Bool) (s : List Char) : List Char :=
  ((s.dropWhile p).reverse.dropWhile p).reverse

/-- Splitting at every character satisfying `p`, keeping empty pieces
(the behaviour of `re.split` on a single-character class, and of Python
`str.split(sep)` for one separator). -/
def list_split (p : Char → Bool) : List Char → List (List Char)
  | [] => [[]]
  | c :: rest =>
    let r := list_split p rest
    if p c then [] :: r
    else (c :: r.headD []) :: r.tail

/-- Python `str.lower` (ASCII behaviour of `Char.toLower`). -/
def pyLower (s : String) : String := String.mk (s.data.map Char.toLower)

/-- `segments.normalize_token`: `token.strip().lower().strip(string.punctuation)`. -/
def normalize_token (token : String) : String :=
  String.mk (pyStrip isPyPunct ((pyStrip Char.isWhitespace token.data).map Char.toLower))

/-- `segments.normalize_query`: whitespace-split (Python `str.split()`, which
drops empty pieces), normalize each piece, drop empties, preserve order. -/
def normalize_query (query : String) : List String :=
  ((list_split Char.isWhitespace query.data).map String.mk).filterMap (fun raw =>
    let norm := normalize_token raw
    if norm = "" then none else some norm)

/-! ## segments.py : phrase matcher -/

/-- The hyphen-like separators of `segments._DASH_RE`:
ASCII hyphen-minus, en dash U+2013, em dash U+2014, minus sign U+2212,
non-breaking hyphen U+2011. -/
def isDash (c : Char) : Bool :=
  c = '-' || c = '–' || c = '—' || c = '−' || c = '‑'

/-- `segments._split_compound`: split on dash characters, keep non-empty parts. -/
def split_compound (token : String) : List String :=
  ((list_split isDash token.data).map String.mk).filter (fun part => part ≠ "")

/-- The three matching modes accepted by `segments.token_matches`
(`argparse` restricts `--match-mode` to exactly these; any other string
raises `ValueError` in the source). -/
inductive MatchMode where
  | exact
  | prefixMode
  | substring
deriving DecidableEq

/-- Python substring containment `q in t` on character lists. -/
def list_isInfixOf (q : List Char) : List Char → Bool
  | [] => q.isEmpty
  | c :: ts => List.isPrefixOf q (c :: ts) || list_isInfixOf q ts

/-- `segments.token_matches`. -/
def token_matches (token query : String) (mode : MatchMode) : Bool :=
  match mode with
  | .exact =>
    if token = query then true
    else if token.data.any isDash then (split_compound token).any (fun part => part = query)
    else false
  | .prefixMode => List.isPrefixOf query.data token.data
  | .substring => list_isInfixOf query.data token.data

/-- ASR word with timestamps (`segments.Word`); the Python field `end` is
called `stop` here (`end` is a Lean keyword). -/
structure Word where
  start : ℚ
  stop : ℚ
  text : String
  norm : String
deriving DecidableEq, Inhabited

/-- One positional window test of `segments.find_phrase_matches`
(the inner `for j, token in enumerate(phrase)` loop at offset `i`). -/
def phrase_window_ok (words : List Word) (phrase : List String) (mode : MatchMode)
    (i : ℕ) : Bool :=
  (List.range phrase.length).all (fun j =>
    token_matches (words.getD (i + j) default).norm (phrase.getD j "") mode)

/-- `segments.find_phrase_matches`: all window start offsets
`i ∈ [0, len(words) - len(phrase)]` are tested (for a nonempty phrase fitting
in `words`; Python's `range(max_i + 1)` is empty when the phrase is longer). -/
def find_phrase_matches (words : List Word) (phrase : List String)
    (mode : MatchMode) : List (ℚ × ℚ) :=
  if phrase = [] then []
  else if words.length < phrase.length then []
  else
    (List.range (words.length - phrase.length + 1)).filterMap (fun i =>
      if phrase_window_ok words phrase mode i then
        some ((words.getD i default).start, (words.getD (i + phrase.length - 1) default).stop)
      else none)

/-- `segments.find_any_phrase_matches`: concatenation of per-phrase results,
skipping empty phrases. -/
def find_any_phrase_matches (words : List Word) (phrases : List (List String))
    (mode : MatchMode) : List (ℚ × ℚ) :=
  phrases.flatMap (fun phrase =>
    if phrase = [] then [] else find_phrase_matches words phrase mode)

/-- The window test of `segments.tokens_contain_phrase` at offset `i`. -/
def tokens_window_ok (tokens : List String) (phrase : List String) (mode : MatchMode)
    (i : ℕ) : Bool :=
  (List.range phrase.length).all (fun j =>
    token_matches (tokens.getD (i + j) "") (phrase.getD j "") mode)

/-- `segments.tokens_contain_phrase`. -/
def tokens_contain_phrase (tokens : List String) (phrase : List String)
    (mode : MatchMode) : Bool :=
  if phrase = [] then false
  else if tokens.length < phrase.length then false
  else (List.range (tokens.length - phrase.length + 1)).any
    (tokens_window_ok tokens phrase mode)

/-! ## segments.py : interval merger -/

/-- The pad-and-drop pass of `segments.pad_and_merge` (its first `for` loop):
`start = max(0.0, start - padding)`, `end = end + padding`, keep if `end > start`. -/
def pad_step (segments : List (ℚ × ℚ)) (padding : ℚ) : List (ℚ × ℚ) :=
  segments.filterMap (fun se =>
    let s := max 0 (se.1 - padding)
    let e := se.2 + padding
    if s < e then some (s, e) else none)

/-- The sweep loop of `segments.pad_and_merge` (`for start, end in padded[1:]`
plus the final flush), carrying the current run `(cs, ce)`. -/
def merge_sweep (merge_gap min_duration : ℚ) :
    ℚ → ℚ → List (ℚ × ℚ) → List (ℚ × ℚ)
  | cs, ce, [] => if min_duration ≤ ce - cs then [(cs, ce)] else []
  | cs, ce, (s, e) :: rest =>
    if s ≤ ce + merge_gap then
      merge_sweep merge_gap min_duration cs (max ce e) rest
    else
      (if min_duration ≤ ce - cs then [(cs, ce)] else []) ++
        merge_sweep merge_gap min_duration s e rest

/-- `segments.pad_and_merge`: pad and drop, return `[]` if nothing survives,
stable-sort ascending by padded start (`padded.sort(key=lambda x: x[0])`),
then sweep-merge. -/
def pad_and_merge (segments : List (ℚ × ℚ)) (padding merge_gap min_duration : ℚ) :
    List (ℚ × ℚ) :=
  match List.insertionSort (fun a b => a.1 ≤ b.1) (pad_step segments padding) with
  | [] => []
  | c :: rest => merge_sweep merge_gap min_duration c.1 c.2 rest

/-! ## subtitles.py : byte decoding

`_decode_bytes` dispatches to Python stdlib codecs invoked with
`errors="replace"`; those codecs are modelled below as total decoders that
produce U+FFFD for invalid input instead of failing.  An unknown explicit
codec name (Python `LookupError`) is modelled as `none` in `lookup_codec`. -/

/-- U+FFFD, the replacement character emitted by `errors="replace"`. -/
def replacementChar : Char := Char.ofNat 0xFFFD

/-- A UTF-8 continuation byte `10xxxxxx`. -/
def isUtf8Cont (b : UInt8) : Bool := 0x80 ≤ b.toNat && b.toNat < 0xC0

/-- Total UTF-8 decoding with replacement: invalid leading bytes, truncated or
malformed sequences, overlong encodings and surrogate codepoints all yield
U+FFFD; decoding never fails.  Structural recursion on a fuel argument (each
step consumes at least one byte, so `length + 1` fuel is never exhausted). -/
def utf8DecodeGo : ℕ → List UInt8 → List Char
  | 0, _ => []
  | _ + 1, [] => []
  | fuel + 1, b :: rest =>
    if b.toNat < 0x80 then Char.ofNat b.toNat :: utf8DecodeGo fuel rest
    else if b.toNat < 0xC2 then replacementChar :: utf8DecodeGo fuel rest
    else if b.toNat < 0xE0 then
      match rest with
      | b2 :: rest2 =>
        if isUtf8Cont b2 then
          Char.ofNat ((b.toNat - 0xC0) * 0x40 + (b2.toNat - 0x80)) :: utf8DecodeGo fuel rest2
        else replacementChar :: utf8DecodeGo fuel rest
      | [] => [replacementChar]
    else if b.toNat < 0xF0 then
      match rest with
      | b2 :: b3 :: rest3 =>
        if isUtf8Cont b2 && isUtf8Cont b3 then
          let code := (b.toNat - 0xE0) * 0x1000 + (b2.toNat - 0x80) * 0x40 + (b3.toNat - 0x80)
          if 0x800 ≤ code && (code < 0xD800 || 0xE000 ≤ code) then
            Char.ofNat code :: utf8DecodeGo fuel rest3
          else replacementChar :: utf8DecodeGo fuel rest
        else replacementChar :: utf8DecodeGo fuel rest
      | _ => replacementChar :: utf8DecodeGo fuel rest
    else if b.toNat < 0xF5 then
      match rest with
      | b2 :: b3 :: b4 :: rest4 =>
        if isUtf8Cont b2 && isUtf8Cont b3 && isUtf8Cont b4 then
          let code := (b.toNat - 0xF0) * 0x40000 + (b2.toNat - 0x80) * 0x1000 +
            (b3.toNat - 0x80) * 0x40 + (b4.toNat - 0x80)
          if 0x10000 ≤ code && code ≤ 0x10FFFF then
            Char.ofNat code :: utf8DecodeGo fuel rest4
          else replacementChar :: utf8DecodeGo fuel rest
        else replacementChar :: utf8DecodeGo fuel rest
      | _ => replacementChar :: utf8DecodeGo fuel rest
    else replacementChar :: utf8DecodeGo fuel rest

/-- UTF-8 decoding with replacement at adequate fuel. -/
def utf8DecodeChars (data : List UInt8) : List Char :=
  utf8DecodeGo (data.length + 1) data

/-- The `utf-8` codec with `errors="replace"`. -/
def utf8_decode (data : List UInt8) : String := String.mk (utf8DecodeChars data)

/-- The `utf-8-sig` codec: a leading UTF-8 BOM is stripped, then UTF-8. -/
def utf8_sig_decode (data : List UInt8) : String :=
  utf8_decode (if List.isPrefixOf [0xEF, 0xBB, 0xBF] data then data.drop 3 else data)

/-- Pair up bytes into 16-bit code units (little- or big-endian); `none`
marks a dangling final byte (replaced downstream). -/
def utf16Units (le : Bool) : List UInt8 → List (Option ℕ)
  | [] => []
  | [_] => [none]
  | b1 :: b2 :: rest =>
    some (if le then b1.toNat + 256 * b2.toNat else b2.toNat + 256 * b1.toNat) ::
      utf16Units le rest

/-- Combine UTF-16 code units, pairing surrogates; lone surrogates and
dangling bytes become U+FFFD.  Structural recursion on fuel (each step
consumes at least one unit, so `length + 1` fuel is never exhausted). -/
def utf16CombineGo : ℕ → List (Option ℕ) → List Char
  | 0, _ => []
  | _ + 1, [] => []
  | fuel + 1, none :: rest => replacementChar :: utf16CombineGo fuel rest
  | fuel + 1, some u :: rest =>
    if u < 0xD800 || 0xE000 ≤ u then Char.ofNat u :: utf16CombineGo fuel rest
    else if u < 0xDC00 then
      match rest with
      | some u2 :: rest2 =>
        if 0xDC00 ≤ u2 && u2 < 0xE000 then
          Char.ofNat (0x10000 + (u - 0xD800) * 0x400 + (u2 - 0xDC00)) :: utf16CombineGo fuel rest2
        else replacementChar :: utf16CombineGo fuel rest
      | _ => replacementChar :: utf16CombineGo fuel rest
    else replacementChar :: utf16CombineGo fuel rest

/-- UTF-16 unit combination at adequate fuel. -/
def utf16Combine (units : List (Option ℕ)) : List Char :=
  utf16CombineGo (units.length + 1) units

/-- The `utf-16` codec with `errors="replace"`: BOM-sniffing, defaulting to
little-endian (the platform native order) without a BOM. -/
def utf16_decode (data : List UInt8) : String :=
  if List.isPrefixOf [0xFF, 0xFE] data then
    String.mk (utf16Combine (utf16Units true (data.drop 2)))
  else if List.isPrefixOf [0xFE, 0xFF] data then
    String.mk (utf16Combine (utf16Units false (data.drop 2)))
  else String.mk (utf16Combine (utf16Units true data))

/-- Group bytes into 32-bit code units; `none` marks a truncated final group. -/
def utf32Units (le : Bool) : List UInt8 → List (Option ℕ)
  | [] => []
  | b1 :: b2 :: b3 :: b4 :: rest =>
    some (if le then
        b1.toNat + 0x100 * b2.toNat + 0x10000 * b3.toNat + 0x1000000 * b4.toNat
      else
        b4.toNat + 0x100 * b3.toNat + 0x10000 * b2.toNat + 0x1000000 * b1.toNat) ::
      utf32Units le rest
  | _ => [none]

/-- The `utf-32` codec with `errors="replace"`: BOM-sniffing, defaulting to
little-endian; out-of-range and surrogate code units become U+FFFD. -/
def utf32_decode (data : List UInt8) : String :=
  let chars := fun (le : Bool) (d : List UInt8) =>
    String.mk ((utf32Units le d).map (fun u =>
      match u with
      | none => replacementChar
      | some c =>
        if (c < 0xD800 || 0xE000 ≤ c) && c ≤ 0x10FFFF then Char.ofNat c
        else replacementChar))
  if List.isPrefixOf [0xFF, 0xFE, 0x00, 0x00] data then chars true (data.drop 4)
  else if List.isPrefixOf [0x00, 0x00, 0xFE, 0xFF] data then chars false (data.drop 4)
  else chars true data

/-- The `latin-1` codec: every byte is a codepoint; total by construction. -/
def latin1_decode (data : List UInt8) : String :=
  String.mk (data.map (fun b => Char.ofNat b.toNat))

/-- The `ascii` codec with `errors="replace"`. -/
def ascii_decode (data : List UInt8) : String :=
  String.mk (data.map (fun b => if b.toNat < 0x80 then Char.ofNat b.toNat else replacementChar))

/-- Python's codec registry restricted to the encodings this program touches;
`none` models `LookupError` for an unknown name (the one way
`bytes.decode(name, errors="replace")` can still fail). -/
def lookup_codec (name : String) : Option (List UInt8 → String) :=
  let n := pyLower name
  if n = "utf-8" || n = "utf8" || n = "utf_8" then some utf8_decode
  else if n = "utf-8-sig" || n = "utf_8_sig" then some utf8_sig_decode
  else if n = "utf-16" || n = "utf16" || n = "utf_16" then some utf16_decode
  else if n = "utf-16-le" || n = "utf_16_le" then
    some (fun d => String.mk (utf16Combine (utf16Units true d)))
  else if n = "utf-16-be" || n = "utf_16_be" then
    some (fun d => String.mk (utf16Combine (utf16Units false d)))
  else if n = "utf-32" || n = "utf32" || n = "utf_32" then some utf32_decode
  else if n = "latin-1" || n = "latin1" || n = "iso-8859-1" || n = "iso8859-1" then
    some latin1_decode
  else if n = "ascii" then some ascii_decode
  else none

/-- `subtitles._decode_bytes`.  The BOM tests follow the source's tuple order
(`BOM_UTF8, BOM_UTF16_LE, BOM_UTF16_BE, BOM_UTF32_LE, BOM_UTF32_BE`), so the
UTF-32 branches are shadowed by the UTF-16 ones exactly as in the source; the
source's `except UnicodeError` around the NUL-heuristic branch is dead code
because `errors="replace"` decoding does not raise `UnicodeError`. -/
def decode_bytes (data : List UInt8) (encoding : String) : Option String :=
  if encoding ≠ "" && pyLower encoding ≠ "auto" then
    (lookup_codec encoding).map (fun dec => dec data)
  else if List.isPrefixOf [0xEF, 0xBB, 0xBF] data then some (utf8_sig_decode data)
  else if List.isPrefixOf [0xFF, 0xFE] data then some (utf16_decode data)
  else if List.isPrefixOf [0xFE, 0xFF] data then some (utf16_decode data)
  else if List.isPrefixOf [0xFF, 0xFE, 0x00, 0x00] data then some (utf32_decode data)
  else if List.isPrefixOf [0x00, 0x00, 0xFE, 0xFF] data then some (utf32_decode data)
  else if (data.take 4096).contains 0 then some (utf16_decode data)
  else some (utf8_sig_decode data)

/-! ## subtitles.py : cue type and coarse matcher -/

/-- `subtitles.SubtitleSegment`; the Python field `end` is called `stop` here. -/
structure SubtitleSegment where
  start : ℚ
  stop : ℚ
  text : String
deriving DecidableEq, Inhabited

/-- `subtitles.match_subtitle_segments`: keep each cue whose normalized token
sequence contains any phrase of the OR-phrase-set. -/
def match_subtitle_segments (segments : List SubtitleSegment)
    (phrases : List (List String)) (mode : MatchMode) : List SubtitleSegment :=
  segments.filter (fun seg =>
    phrases.any (fun phrase =>
      tokens_contain_phrase (normalize_query seg.text) phrase mode))

/-! ## cli.py : per-cue refinement and accumulation (main, the
`for seg in matched_subs` loop body after ASR, lines 200–207) -/

/-- The refinement step of `cli.main` for one coarse-matched cue, given the
ASR `Word`s of the cue's audio window: phrase matches are shifted by the
cue's own start; with zero matches the cue's original bounds are kept. -/
def refine_cue (seg : SubtitleSegment) (local_words : List Word)
    (phrases : List (List String)) (mode : MatchMode) : List (ℚ × ℚ) :=
  let local_matches := find_any_phrase_matches local_words phrases mode
  if local_matches = [] then [(seg.start, seg.stop)]
  else local_matches.map (fun se => (seg.start + se.1, seg.start + se.2))

/-- The raw-interval accumulation of `cli.main` over the coarse-matched cues of
one input file.  The external audio extraction + ASR is the argument `asr`;
`asr seg = none` models a failed per-segment audio extraction, which `continue`s
past the cue (it contributes no interval). -/
def collect_raw (cues : List SubtitleSegment)
    (asr : SubtitleSegment → Option (List Word))
    (phrases : List (List String)) (mode : MatchMode) : List (ℚ × ℚ) :=
  cues.flatMap (fun seg =>
    match asr seg with
    | none => []
    | some ws => refine_cue seg ws phrases mode)

/-! ## subtitles.py : SRT parsing (`load_srt` and helpers)

`load_srt` reads the file's bytes (external IO) and decodes them through
`_decode_bytes`; everything after that point is modelled here on the decoded
text.  The regexes `_TIME_RE` (timecode grammar) and the separators of
`re.split(r"\n\s*\n", ...)` are implemented directly. -/

/-- Consume exactly `n` ASCII digits from the front (`\d{n}` followed by the
regex's next literal), returning their value and the remaining input. -/
def parseDigitsExact (n : ℕ) (l : List Char) : Option (ℕ × List Char) :=
  let ds := l.take n
  if ds.length = n && ds.all Char.isDigit then
    some (ds.foldl (fun acc c => 10 * acc + (c.toNat - 48)) 0, l.drop n)
  else none

/-- Consume one expected literal character. -/
def expectChar (c : Char) : List Char → Option (List Char)
  | x :: rest => if x = c then some rest else none
  | [] => none

/-- One `HH:MM:SS,mmm` group of `subtitles._TIME_RE`. -/
def matchTimeTriple (l : List Char) : Option (ℕ × ℕ × ℕ × ℕ × List Char) := do
  let (h, r1) ← parseDigitsExact 2 l
  let r2 ← expectChar ':' r1
  let (m, r3) ← parseDigitsExact 2 r2
  let r4 ← expectChar ':' r3
  let (s, r5) ← parseDigitsExact 2 r4
  let r6 ← expectChar ',' r5
  let (ms, r7) ← parseDigitsExact 3 r6
  some (h, m, s, ms, r7)

/-- `subtitles._TIME_RE` matched at the start of the input:
`HH:MM:SS,mmm \s* --> \s* HH:MM:SS,mmm`, yielding the eight digit groups. -/
def matchTimecodeAt (l : List Char) : Option (ℕ × ℕ × ℕ × ℕ × ℕ × ℕ × ℕ × ℕ) := do
  let (h1, m1, s1, ms1, r1) ← matchTimeTriple l
  let r2 := r1.dropWhile Char.isWhitespace
  match r2 with
  | '-' :: '-' :: '>' :: r3 =>
    let r4 := r3.dropWhile Char.isWhitespace
    let (h2, m2, s2, ms2, _) ← matchTimeTriple r4
    some (h1, m1, s1, ms1, h2, m2, s2, ms2)
  | _ => none

/-- `_TIME_RE.search`: leftmost match, trying every start position. -/
def time_search : List Char → Option (ℕ × ℕ × ℕ × ℕ × ℕ × ℕ × ℕ × ℕ)
  | [] => none
  | c :: rest => (matchTimecodeAt (c :: rest)).orElse (fun _ => time_search rest)

/-- `subtitles._parse_time`: `h*3600 + m*60 + s + ms/1000`. -/
def parse_time (h m s ms : ℕ) : ℚ :=
  (h : ℚ) * 3600 + (m : ℚ) * 60 + (s : ℚ) + (ms : ℚ) / 1000

/-- Last index of a character satisfying `p`. -/
def findLastIdx (p : Char → Bool) (l : List Char) : Option ℕ :=
  match (l.reverse).findIdx? p with
  | some k => some (l.length - 1 - k)
  | none => none

/-- A separator of `re.split(r"\n\s*\n", data)` matched at the start of the
input: a newline, then a greedy whitespace run backtracked to its last
newline; returns the remainder after the separator. -/
def sepConsume (l : List Char) : Option (List Char) :=
  match l with
  | c :: rest =>
    if c = '\n' then
      let ws := rest.takeWhile Char.isWhitespace
      match findLastIdx (fun x => x = '\n') ws with
      | some k => some (rest.drop (k + 1))
      | none => none
    else none
  | [] => none

/-- The scanning loop of `re.split(r"\n\s*\n", data)`: accumulate the current
block, splitting at each leftmost separator match.  Structural recursion on
fuel (every step consumes at least one character — a separator consumes at
least two — so `length + 1` fuel is never exhausted). -/
def splitBlocksGo : ℕ → List Char → List Char → List (List Char)
  | 0, _, acc => [acc.reverse]
  | fuel + 1, l, acc =>
    match sepConsume l with
    | some rem => acc.reverse :: splitBlocksGo fuel rem []
    | none =>
      match l with
      | [] => [acc.reverse]
      | c :: rest => splitBlocksGo fuel rest (c :: acc)

/-- `re.split(r"\n\s*\n", data, flags=re.MULTILINE)`. -/
def splitBlocks (l : List Char) : List (List Char) := splitBlocksGo (l.length + 1) l []

/-- Python `str.splitlines` restricted to the `\n`, `\r\n` and `\r` line
breaks (no trailing empty line). -/
def pySplitlines : List Char → List (List Char) :=
  go []
where
  /-- Accumulating helper for `pySplitlines`. -/
  go (acc : List Char) : List Char → List (List Char)
    | [] => if acc.isEmpty then [] else [acc.reverse]
    | '\r' :: '\n' :: rest => acc.reverse :: go [] rest
    | '\r' :: rest => acc.reverse :: go [] rest
    | '\n' :: rest => acc.reverse :: go [] rest
    | c :: rest => go (c :: acc) rest

/-- The tag-stripping regex `_TAG_RE = <[^>]+>`, applied non-overlapping
left-to-right as by `re.sub(_TAG_RE, "", text)`.  Structural recursion on
fuel (each step consumes at least one character, so `length + 1` fuel is
never exhausted). -/
def stripTagsGo : ℕ → List Char → List Char
  | 0, _ => []
  | _ + 1, [] => []
  | fuel + 1, c :: rest =>
    if c = '<' then
      let inner := rest.takeWhile (fun x => x ≠ '>')
      if inner ≠ [] && (rest.drop inner.length).take 1 = ['>'] then
        stripTagsGo fuel (rest.drop (inner.length + 1))
      else c :: stripTagsGo fuel rest
    else c :: stripTagsGo fuel rest

/-- Tag stripping at adequate fuel. -/
def strip_tags (l : List Char) : List Char := stripTagsGo (l.length + 1) l

/-- `subtitles._clean_text`: strip tags, turn newlines into spaces, strip. -/
def clean_text (l : List Char) : List Char :=
  pyStrip Char.isWhitespace ((strip_tags l).map (fun c => if c = '\n' then ' ' else c))

/-- The cleaned line list of one block:
`[line.strip("\r") for line in block.splitlines() if line.strip("\r")]`. -/
def srt_lines (block : List Char) : List (List Char) :=
  ((pySplitlines block).map (pyStrip (fun c => c = '\r'))).filter
    (fun line => line ≠ [])

/-- `time_line = lines[1] if _TIME_RE.search(lines[1]) else lines[0]`. -/
def srt_time_line (lines : List (List Char)) : List Char :=
  if (time_search (lines.getD 1 [])).isSome then lines.getD 1 [] else lines.getD 0 []

/-- `text_lines = lines[2:] if match and time_line == lines[1] else lines[1:]`,
joined with newlines and cleaned (the `match` conjunct is true whenever this
is evaluated in the source). -/
def srt_text (lines : List (List Char)) : List Char :=
  clean_text (List.intercalate ['\n']
    (if srt_time_line lines = lines.getD 1 [] then lines.drop 2 else lines.drop 1))

/-- The per-block body of `subtitles.load_srt`: non-`\r` lines, a timecode
line at index 0 or 1 (index 1 preferred), remaining lines joined and
cleaned; `none` when the block is silently dropped. -/
def cueOfBlock (block : List Char) : Option SubtitleSegment :=
  let lines := srt_lines block
  if lines.length < 2 then none
  else
    match time_search (srt_time_line lines) with
    | none => none
    | some (h1, m1, s1, ms1, h2, m2, s2, ms2) =>
      let text := srt_text lines
      if text = [] then none
      else some ⟨parse_time h1 m1 s1 ms1, parse_time h2 m2 s2 ms2, String.mk text⟩

/-- `subtitles.load_srt` on the decoded subtitle text (the byte-decoding step
is `decode_bytes`, the file read is external IO): strip the data, split into
blank-line-separated blocks, parse each block, keep file order. -/
def load_srt (data : String) : List SubtitleSegment :=
  (splitBlocks (pyStrip Char.isWhitespace data.data)).filterMap cueOfBlock

/-! ## Helper lemmas -/

/-- A `filterMap` over an `if`-guard is the `map` of the `filter`. -/
lemma filterMap_guard_eq_map_filter {α β : Type} (p : α → Bool) (f : α → β) (l : List α) :
    (l.filterMap (fun a => if p a then some (f a) else none)) = (l.filter p).map f := by
  induction l with
  | nil => simp
  | cons a l ih => by_cases h : p a <;> simp [h, ih]

instance : IsTotal (ℚ × ℚ) (fun a b => a.1 ≤ b.1) := ⟨fun a b => le_total a.1 b.1⟩

instance : IsTrans (ℚ × ℚ) (fun a b => a.1 ≤ b.1) := ⟨fun _ _ _ h1 h2 => le_trans h1 h2⟩

/-- Members of the padded list are nonnegative-start, positive-length spans. -/
lemma pad_step_mem {xs : List (ℚ × ℚ)} {p : ℚ} {x : ℚ × ℚ} (hx : x ∈ pad_step xs p) :
    0 ≤ x.1 ∧ x.1 < x.2 := by
  simp only [pad_step, List.mem_filterMap] at hx
  obtain ⟨a, _, ha⟩ := hx
  split at ha
  · rename_i hlt
    cases ha
    exact ⟨le_max_left _ _, hlt⟩
  · simp at ha

/-! ## Claims -/

/-- C9: an empty phrase never matches — `find_phrase_matches` with the empty
phrase returns the empty list for every token sequence and mode (rather than
matching at every position), and `tokens_contain_phrase` with the empty
phrase returns `false` (rather than trivial containment). -/
theorem C9_empty_phrase_no_match :
    (∀ (words : List Word) (mode : MatchMode), find_phrase_matches words [] mode = [])
    ∧ (∀ (tokens : List String) (mode : MatchMode),
        tokens_contain_phrase tokens [] mode = false) :=
  ⟨fun _ _ => by simp [find_phrase_matches], fun _ _ => by simp [tokens_contain_phrase]⟩

/-- C3: in exact mode `token_matches token query .exact` is true iff the token
equals the query, or the token contains a hyphen-like separator (ASCII hyphen,
en dash, em dash, minus sign, non-breaking hyphen) and some dash-split
component equals the query; `"well-known"` matches `"known"` and `"well"` but
not `"known-well"`, and a separator-free token matches only by equality. -/
theorem C3_exact_token_matches :
    (∀ token query : String,
      token_matches token query .exact = true ↔
        token = query ∨ (token.data.any isDash = true ∧ query ∈ split_compound token))
    ∧ (∀ c : Char, isDash c = true ↔ (c = '-' ∨ c = '–' ∨ c = '—' ∨ c = '−' ∨ c = '‑'))
    ∧ token_matches "well-known" "known" .exact = true
    ∧ token_matches "well-known" "well" .exact = true
    ∧ token_matches "well-known" "known-well" .exact = false
    ∧ (∀ token query : String, token.data.any isDash = false →
        (token_matches token query .exact = true ↔ token = query)) := by
  have hmain : ∀ token query : String,
      token_matches token query .exact = true ↔
        token = query ∨ (token.data.any isDash = true ∧ query ∈ split_compound token) := by
    intro token query
    by_cases h1 : token = query
    · simp [token_matches, h1]
    · cases h2 : token.data.any isDash with
      | false => simp [token_matches, h1, h2]
      | true => simp [token_matches, h1, h2]
  refine ⟨hmain, ?_, by decide, by decide, by decide, ?_⟩
  · intro c
    simp [isDash, or_assoc]
  · intro token query h
    rw [hmain token query]
    simp [h]

/-- C3 witness: the separator-free clause applied at the concrete token
`"cat"`, discharging its hypothesis. -/
theorem C3_exact_token_matches_witness :
    ("cat".data.any isDash = false)
    ∧ (token_matches "cat" "cat" .exact = true ↔ ("cat" : String) = "cat") :=
  ⟨by decide, C3_exact_token_matches.2.2.2.2.2 "cat" "cat" (by decide)⟩

/-- C4: for a non-empty phrase, `find_phrase_matches` tests every window
start `i` in `[0, len(words) - len(phrase)]` inclusive, emitting
`(words[i].start, words[i+len-1].end)` exactly for the matching windows, in
ascending start-index order with no window skipped after a hit; on tokens
`a a b` the phrase `a b` yields one match covering indices 1–2, and on
`a a` the phrase `a` yields two overlapping matches at indices 0 and 1. -/
theorem C4_find_phrase_matches_windows :
    (∀ (words : List Word) (phrase : List String) (mode : MatchMode), phrase ≠ [] →
      find_phrase_matches words phrase mode =
        ((List.range (words.length + 1 - phrase.length)).filter
            (phrase_window_ok words phrase mode)).map
          (fun i => ((words.getD i default).start,
            (words.getD (i + phrase.length - 1) default).stop)))
    ∧ (∀ (words : List Word) (phrase : List String) (mode : MatchMode),
        ((List.range (words.length + 1 - phrase.length)).filter
          (phrase_window_ok words phrase mode)).Pairwise (· < ·))
    ∧ find_phrase_matches [⟨0, 1, "a", "a"⟩, ⟨1, 2, "a", "a"⟩, ⟨2, 3, "b", "b"⟩]
        ["a", "b"] .exact = [(1, 3)]
    ∧ find_phrase_matches [⟨0, 1, "a", "a"⟩, ⟨1, 2, "a", "a"⟩] ["a"] .exact
        = [(0, 1), (1, 2)] := by
  refine ⟨?_, ?_, rfl, rfl⟩
  · intro words phrase mode hne
    simp only [find_phrase_matches, if_neg hne]
    by_cases hlen : words.length < phrase.length
    · rw [if_pos hlen]
      have : words.length + 1 - phrase.length = 0 := by omega
      simp [this]
    · rw [if_neg hlen]
      have : words.length - phrase.length + 1 = words.length + 1 - phrase.length := by
        omega
      rw [this, filterMap_guard_eq_map_filter]
  · intro words phrase mode
    exact List.Pairwise.sublist (List.filter_sublist _) (List.pairwise_lt_range _)

/-- C4 witness: the window characterization applied to the concrete `a a b`
word list with phrase `a b`, discharging the non-emptiness hypothesis. -/
theorem C4_find_phrase_matches_windows_witness :
    (["a", "b"] ≠ ([] : List String))
    ∧ find_phrase_matches [Word.mk 0 1 "a" "a", Word.mk 1 2 "a" "a", Word.mk 2 3 "b" "b"]
        ["a", "b"] .exact =
      ((List.range ([Word.mk 0 1 "a" "a", Word.mk 1 2 "a" "a", Word.mk 2 3 "b" "b"].length
          + 1 - (["a", "b"] : List String).length)).filter
        (phrase_window_ok [Word.mk 0 1 "a" "a", Word.mk 1 2 "a" "a", Word.mk 2 3 "b" "b"]
          ["a", "b"] .exact)).map
        (fun i => (([Word.mk 0 1 "a" "a", Word.mk 1 2 "a" "a", Word.mk 2 3 "b" "b"].getD i
            default).start,
          (([Word.mk 0 1 "a" "a", Word.mk 1 2 "a" "a", Word.mk 2 3 "b" "b"].getD
            (i + (["a", "b"] : List String).length - 1) default)).stop)) :=
  ⟨by decide,
    C4_find_phrase_matches_windows.1
      [Word.mk 0 1 "a" "a", Word.mk 1 2 "a" "a", Word.mk 2 3 "b" "b"] ["a", "b"] .exact
      (by decide)⟩

/-- C5: `match_subtitle_segments` returns exactly the subsequence, in input
order and with cues unchanged, of cues whose normalized token sequence
contains at least one phrase of the OR-phrase-set; with the set
`[["cat"], ["dog"]]` a cue containing "dog" but not "cat" is selected, and
whole cues (never sub-cue spans) are returned. -/
theorem C5_match_subtitle_segments_filter :
    (∀ (segs : List SubtitleSegment) (phrases : List (List String)) (mode : MatchMode),
      match_subtitle_segments segs phrases mode =
        segs.filter (fun seg => phrases.any (fun phrase =>
          tokens_contain_phrase (normalize_query seg.text) phrase mode)))
    ∧ (∀ (segs : List SubtitleSegment) (phrases : List (List String)) (mode : MatchMode),
        (match_subtitle_segments segs phrases mode).Sublist segs)
    ∧ match_subtitle_segments [⟨0, 1, "a dog barks"⟩] [["cat"], ["dog"]] .exact
        = [⟨0, 1, "a dog barks"⟩]
    ∧ tokens_contain_phrase (normalize_query "a dog barks") ["cat"] .exact = false := by
  exact ⟨fun _ _ _ => rfl, fun _ _ _ => List.filter_sublist _, rfl, by decide⟩

/-- C2: for every coarse-matched cue, if the phrase matcher on the ASR words
of the cue's window yields zero matches for every phrase, the orchestrator
appends the cue's original, unshifted `(start, end)`; hence refinement never
removes a coarse-matched cue — every coarse-matched cue that survives audio
extraction (`asr seg = some ws`) contributes at least one raw interval. -/
theorem C2_refinement_fallback :
    (∀ (seg : SubtitleSegment) (ws : List Word) (phrases : List (List String))
        (mode : MatchMode),
      (find_any_phrase_matches ws phrases mode = [] →
        refine_cue seg ws phrases mode = [(seg.start, seg.stop)])
      ∧ refine_cue seg ws phrases mode ≠ [])
    ∧ (∀ (cues : List SubtitleSegment) (asr : SubtitleSegment → Option (List Word))
        (phrases : List (List String)) (mode : MatchMode)
        (seg : SubtitleSegment) (ws : List Word) (iv : ℚ × ℚ),
        seg ∈ cues → asr seg = some ws → iv ∈ refine_cue seg ws phrases mode →
        iv ∈ collect_raw cues asr phrases mode) := by
  constructor
  · intro seg ws phrases mode
    constructor
    · intro h
      simp [refine_cue, h]
    · by_cases h : find_any_phrase_matches ws phrases mode = []
      · simp [refine_cue, h]
      · simp [refine_cue, h]
  · intro cues asr phrases mode seg ws iv hseg hasr hiv
    simp only [collect_raw, List.mem_flatMap]
    refine ⟨seg, hseg, ?_⟩
    rw [hasr]
    exact hiv

/-- C2 witness: the fallback equation and the accumulation clause applied at a
concrete cue with an empty ASR response, discharging every hypothesis. -/
theorem C2_refinement_fallback_witness :
    refine_cue ⟨0, 1, "x"⟩ [] [["cat"]] .exact = [(0, 1)]
    ∧ ((0 : ℚ), (1 : ℚ)) ∈ collect_raw [⟨0, 1, "x"⟩] (fun _ => some [])
        [["cat"]] .exact :=
  ⟨(C2_refinement_fallback.1 ⟨0, 1, "x"⟩ [] [["cat"]] .exact).1 rfl,
    C2_refinement_fallback.2 [⟨0, 1, "x"⟩] (fun _ => some []) [["cat"]] .exact
      ⟨0, 1, "x"⟩ [] ((0 : ℚ), (1 : ℚ)) (by decide) rfl (by decide)⟩

/-- C6: every local phrase match `(s, e)` found among the ASR words of a
cue's window is recorded as the global interval
`(cue.start + s, cue.start + e)` before merging; in the spec §8 scenario —
cue `[2, 4]`, word "world" at local `[1.5, 1.9]`, padding `0.25` — the
refined global interval before merging, after shifting and padding, is
`(3.25, 4.15)`. -/
theorem C6_refined_interval_shift :
    (∀ (seg : SubtitleSegment) (ws : List Word) (phrases : List (List String))
        (mode : MatchMode) (s e : ℚ),
      (s, e) ∈ find_any_phrase_matches ws phrases mode →
      (seg.start + s, seg.start + e) ∈ refine_cue seg ws phrases mode)
    ∧ refine_cue ⟨2, 4, "hello world"⟩ [⟨3/2, 19/10, "world", "world"⟩]
        [["world"]] .exact = [(2 + 3/2, 2 + 19/10)]
    ∧ ((2 : ℚ) + 3/2 = 7/2 ∧ (2 : ℚ) + 19/10 = 39/10)
    ∧ pad_and_merge [(7/2, 39/10)] (1/4) (1/5) (1/20) = [(13/4, 83/20)] := by
  refine ⟨?_, rfl, by norm_num, ?_⟩
  · intro seg ws phrases mode s e hmem
    have hne : find_any_phrase_matches ws phrases mode ≠ [] := by
      intro h
      rw [h] at hmem
      simp at hmem
    have heq : refine_cue seg ws phrases mode =
        (find_any_phrase_matches ws phrases mode).map
          (fun se => (seg.start + se.1, seg.start + se.2)) := by
      simp [refine_cue, hne]
    rw [heq]
    exact List.mem_map.mpr ⟨(s, e), hmem, rfl⟩
  · norm_num [pad_and_merge, pad_step, merge_sweep, List.insertionSort,
      List.orderedInsert, List.filterMap]

/-- C6 witness: the shift clause applied at a concrete cue and word list,
discharging the membership hypothesis. -/
theorem C6_refined_interval_shift_witness :
    ((1 : ℚ), (2 : ℚ)) ∈ find_any_phrase_matches [⟨1, 2, "w", "w"⟩] [["w"]] .exact
    ∧ ((SubtitleSegment.mk 0 5 "c").start + 1, (SubtitleSegment.mk 0 5 "c").start + 2) ∈
        refine_cue ⟨0, 5, "c"⟩ [⟨1, 2, "w", "w"⟩] [["w"]] .exact :=
  ⟨by decide,
    C6_refined_interval_shift.1 ⟨0, 5, "c"⟩ [⟨1, 2, "w", "w"⟩] [["w"]] .exact 1 2
      (by decide)⟩

/-- C8: subtitle byte decoding is total over the modelled codec registry: for
every byte sequence and every encoding argument that is a known encoding name
or `auto` (or empty, which the source treats as `auto`), `decode_bytes`
returns a string; an explicit non-`auto` encoding is used when given,
otherwise the branch is selected by byte-order mark, otherwise a 16-bit
encoding is assumed when NUL bytes appear in the first 4096 bytes, otherwise
BOM-tolerant UTF-8 is used; invalid byte sequences are replaced with U+FFFD
rather than rejected. -/
theorem C8_decode_bytes_total_and_branches :
    (∀ (data : List UInt8) (encoding : String),
      (encoding = "" ∨ pyLower encoding = "auto" ∨ (lookup_codec encoding).isSome = true) →
      (decode_bytes data encoding).isSome = true)
    ∧ (∀ (data : List UInt8) (encoding : String),
        encoding ≠ "" → pyLower encoding ≠ "auto" →
        decode_bytes data encoding = (lookup_codec encoding).map (fun dec => dec data))
    ∧ (∀ data : List UInt8, List.isPrefixOf [0xEF, 0xBB, 0xBF] data = true →
        decode_bytes data "auto" = some (utf8_sig_decode data))
    ∧ (∀ data : List UInt8,
        List.isPrefixOf [0xEF, 0xBB, 0xBF] data = false →
        List.isPrefixOf [0xFF, 0xFE] data = false →
        List.isPrefixOf [0xFE, 0xFF] data = false →
        List.isPrefixOf [0x00, 0x00, 0xFE, 0xFF] data = false →
        (data.take 4096).contains 0 = true →
        decode_bytes data "auto" = some (utf16_decode data))
    ∧ (∀ data : List UInt8,
        List.isPrefixOf [0xEF, 0xBB, 0xBF] data = false →
        List.isPrefixOf [0xFF, 0xFE] data = false →
        List.isPrefixOf [0xFE, 0xFF] data = false →
        List.isPrefixOf [0x00, 0x00, 0xFE, 0xFF] data = false →
        (data.take 4096).contains 0 = false →
        decode_bytes data "auto" = some (utf8_sig_decode data))
    ∧ decode_bytes [0xFF] "utf-8" = some (String.mk [replacementChar])
    ∧ utf16_decode [0x68] = String.mk [replacementChar] := by
  have hauto : pyLower "auto" = "auto" := rfl
  have hfffe : ∀ data : List UInt8, List.isPrefixOf [0xFF, 0xFE] data = false →
      List.isPrefixOf [0xFF, 0xFE, 0x00, 0x00] data = false := by
    intro data h
    match data with
    | [] => rfl
    | [a] => simp [List.isPrefixOf]
    | a :: b :: rest => simp_all [List.isPrefixOf]
  have hbranch : ∀ data : List UInt8, (decode_bytes data "auto").isSome = true := by
    intro data
    simp only [decode_bytes, hauto]
    rw [if_neg (by simp)]
    split_ifs <;> simp
  refine ⟨?_, ?_, ?_, ?_, ?_, rfl, rfl⟩
  · intro data encoding h
    rcases h with rfl | h | h
    · simp only [decode_bytes]
      rw [if_neg (by simp)]
      split_ifs <;> simp
    · by_cases he : encoding = ""
      · subst he
        simp only [decode_bytes]
        rw [if_neg (by simp)]
        split_ifs <;> simp
      · simp only [decode_bytes, h]
        rw [if_neg (by simp)]
        split_ifs <;> simp
    · obtain ⟨dec, hdec⟩ := Option.isSome_iff_exists.mp h
      by_cases he : encoding = ""
      · subst he
        simp only [decode_bytes]
        rw [if_neg (by simp)]
        split_ifs <;> simp
      · by_cases ha : pyLower encoding = "auto"
        · simp only [decode_bytes, ha]
          rw [if_neg (by simp)]
          split_ifs <;> simp
        · simp [decode_bytes, he, ha, hdec]
  · intro data encoding h1 h2
    simp [decode_bytes, h1, h2]
  · intro data h
    simp [decode_bytes, hauto, h]
  · intro data h1 h2 h3 h4 h5
    have h5m : (0 : UInt8) ∈ List.take 4096 data := by
      simpa using h5
    simp [decode_bytes, hauto, h1, h2, h3, h4, hfffe data h2, h5m]
  · intro data h1 h2 h3 h4 h5
    have h5m : ¬ (0 : UInt8) ∈ List.take 4096 data := by
      simpa using h5
    simp [decode_bytes, hauto, h1, h2, h3, h4, hfffe data h2, h5m]

/-- C8 witness: totality applied at a concrete byte list and the known
encoding name `utf-8`, discharging the hypothesis. -/
theorem C8_decode_bytes_total_witness :
    ((lookup_codec "utf-8").isSome = true)
    ∧ (decode_bytes [0xFF] "utf-8").isSome = true :=
  ⟨rfl, C8_decode_bytes_total_and_branches.1 [0xFF] "utf-8" (Or.inr (Or.inr rfl))⟩

/-- C10: `load_srt` performs no timestamp validation — every block with a
recognized timecode line at line index 0 or 1 and non-empty cleaned text
yields exactly one cue whose start and end are the parsed times, even when
end ≤ start or successive cues are non-monotonic; cues are emitted strictly
in block order, never reordered, deduplicated or filtered by time. -/
theorem C10_load_srt_no_time_validation :
    (∀ data : String, load_srt data =
        (splitBlocks (pyStrip Char.isWhitespace data.data)).filterMap cueOfBlock)
    ∧ (∀ block : List Char,
        (cueOfBlock block).isSome = true ↔
          (2 ≤ (srt_lines block).length
            ∧ (time_search (srt_time_line (srt_lines block))).isSome = true
            ∧ srt_text (srt_lines block) ≠ []))
    ∧ (∀ (block : List Char) (seg : SubtitleSegment), cueOfBlock block = some seg →
        ∃ g : ℕ × ℕ × ℕ × ℕ × ℕ × ℕ × ℕ × ℕ,
          time_search (srt_time_line (srt_lines block)) = some g
          ∧ seg.start = parse_time g.1 g.2.1 g.2.2.1 g.2.2.2.1
          ∧ seg.stop = parse_time g.2.2.2.2.1 g.2.2.2.2.2.1 g.2.2.2.2.2.2.1 g.2.2.2.2.2.2.2
          ∧ seg.text = String.mk (srt_text (srt_lines block)))
    ∧ load_srt "1\n00:00:05,000 --> 00:00:02,000\nhello\n\n2\n00:00:01,500 --> 00:00:09,000\n<i>world</i> again\n"
        = [⟨parse_time 0 0 5 0, parse_time 0 0 2 0, "hello"⟩,
           ⟨parse_time 0 0 1 500, parse_time 0 0 9 0, "world again"⟩]
    ∧ (parse_time 0 0 5 0 = 5 ∧ parse_time 0 0 2 0 = 2
        ∧ parse_time 0 0 1 500 = 3/2 ∧ parse_time 0 0 9 0 = 9)
    ∧ parse_time 0 0 2 0 < parse_time 0 0 5 0
    ∧ parse_time 0 0 1 500 < parse_time 0 0 5 0 := by
  refine ⟨fun _ => rfl, ?_, ?_, rfl, by norm_num [parse_time],
    by norm_num [parse_time], by norm_num [parse_time]⟩
  · intro block
    simp only [cueOfBlock]
    by_cases hlen : (srt_lines block).length < 2
    · simp only [if_pos hlen, Option.isSome_none]
      constructor
      · intro h
        simp at h
      · intro ⟨h, _⟩
        omega
    · rw [if_neg hlen]
      cases hts : time_search (srt_time_line (srt_lines block)) with
      | none =>
        simp [hts]
      | some g =>
        obtain ⟨h1, m1, s1, ms1, h2, m2, s2, ms2⟩ := g
        by_cases htext : srt_text (srt_lines block) = []
        · simp [htext, hts]
        · simp [htext, hts]
          omega
  · intro block seg h
    simp only [cueOfBlock] at h
    split at h
    · simp at h
    · split at h
      · simp at h
      · rename_i hts
        split at h
        · simp at h
        · rename_i htext
          simp only [Option.some.injEq] at h
          subst h
          exact ⟨_, hts, rfl, rfl, rfl⟩

/-- Sweep invariant: with a nonnegative gap, starting from a positive-length
run whose start bounds all the (sorted) remaining padded intervals, the sweep
emits pairwise-disjoint, strictly ascending runs of duration at least
`min_duration`, all starting at or after the current run start. -/
lemma merge_sweep_invariant (g m : ℚ) (hg : 0 ≤ g) :
    ∀ (rest : List (ℚ × ℚ)) (cs ce : ℚ), cs < ce → 0 ≤ cs →
      rest.Pairwise (fun a b => a.1 ≤ b.1) →
      (∀ x ∈ rest, x.1 < x.2) →
      (∀ x ∈ rest, cs ≤ x.1) →
      (merge_sweep g m cs ce rest).Pairwise (fun a b => a.2 < b.1) ∧
      (∀ y ∈ merge_sweep g m cs ce rest,
        m ≤ y.2 - y.1 ∧ y.1 < y.2 ∧ cs ≤ y.1 ∧ 0 ≤ y.1) := by
  intro rest
  induction rest with
  | nil =>
    intro cs ce hlt hcs _ _ _
    by_cases hm : m ≤ ce - cs
    · simp only [merge_sweep, if_pos hm]
      refine ⟨List.pairwise_singleton _ _, ?_⟩
      intro y hy
      simp only [List.mem_singleton] at hy
      subst hy
      exact ⟨hm, hlt, le_refl _, hcs⟩
    · simp only [merge_sweep, if_neg hm]
      exact ⟨List.Pairwise.nil, by simp⟩
  | cons hd tl ih =>
    intro cs ce hlt hcs hpw hmem hge
    obtain ⟨s, e⟩ := hd
    rw [List.pairwise_cons] at hpw
    by_cases hle : s ≤ ce + g
    · simp only [merge_sweep, if_pos hle]
      exact ih cs (max ce e) (lt_max_of_lt_left hlt) hcs hpw.2
        (fun x hx => hmem x (List.mem_cons_of_mem _ hx))
        (fun x hx => hge x (List.mem_cons_of_mem _ hx))
    · simp only [merge_sweep, if_neg hle]
      push_neg at hle
      have hces : ce < s := lt_of_le_of_lt (le_add_of_nonneg_right hg) hle
      have hse : s < e := hmem (s, e) (List.mem_cons_self _ _)
      have hcs_s : cs ≤ s := hge (s, e) (List.mem_cons_self _ _)
      have h0s : 0 ≤ s := le_trans hcs hcs_s
      obtain ⟨ipw, imem⟩ := ih s e hse h0s hpw.2
        (fun x hx => hmem x (List.mem_cons_of_mem _ hx)) hpw.1
      by_cases hm : m ≤ ce - cs
      · rw [if_pos hm, List.singleton_append]
        constructor
        · rw [List.pairwise_cons]
          refine ⟨?_, ipw⟩
          intro y hy
          exact lt_of_lt_of_le hces (imem y hy).2.2.1
        · intro y hy
          rcases List.mem_cons.mp hy with rfl | hy2
          · exact ⟨hm, hlt, le_refl _, hcs⟩
          · obtain ⟨i1, i2, i3, i4⟩ := imem y hy2
            exact ⟨i1, i2, le_trans hcs_s i3, i4⟩
      · rw [if_neg hm, List.nil_append]
        refine ⟨ipw, ?_⟩
        intro y hy
        obtain ⟨i1, i2, i3, i4⟩ := imem y hy
        exact ⟨i1, i2, le_trans hcs_s i3, i4⟩

/-- The output invariant of `pad_and_merge` for a nonnegative merge gap:
pairwise-disjoint ascending spans, each of duration at least `min_duration`,
with nonnegative starts. -/
lemma pad_and_merge_props (xs : List (ℚ × ℚ)) (p g m : ℚ) (hg : 0 ≤ g) :
    (pad_and_merge xs p g m).Pairwise (fun a b => a.2 < b.1) ∧
    (∀ y ∈ pad_and_merge xs p g m, m ≤ y.2 - y.1 ∧ y.1 < y.2 ∧ 0 ≤ y.1) := by
  unfold pad_and_merge
  cases hsort : List.insertionSort (fun a b => a.1 ≤ b.1) (pad_step xs p) with
  | nil => simp
  | cons c rest =>
    have hperm := List.perm_insertionSort (fun (a b : ℚ × ℚ) => a.1 ≤ b.1) (pad_step xs p)
    rw [hsort] at hperm
    have hmemall : ∀ x ∈ c :: rest, 0 ≤ x.1 ∧ x.1 < x.2 := by
      intro x hx
      exact pad_step_mem (hperm.subset hx)
    have hsorted := List.sorted_insertionSort (fun (a b : ℚ × ℚ) => a.1 ≤ b.1) (pad_step xs p)
    rw [hsort] at hsorted
    obtain ⟨hhead, htail⟩ := List.sorted_cons.mp hsorted
    have hc := hmemall c (List.mem_cons_self _ _)
    obtain ⟨hpw, hmem⟩ := merge_sweep_invariant g m hg rest c.1 c.2 hc.2 hc.1 htail
      (fun x hx => (hmemall x (List.mem_cons_of_mem _ hx)).2)
      (fun x hx => hhead x hx)
    exact ⟨hpw, fun y hy => ⟨(hmem y hy).1, (hmem y hy).2.1, (hmem y hy).2.2.2⟩⟩

/-- With zero gap and zero minimum duration, a sweep started on a chain of
pairwise-disjoint, positive-length runs reproduces the chain. -/
lemma merge_sweep_chain :
    ∀ (rest : List (ℚ × ℚ)) (cs ce : ℚ), cs < ce →
      (∀ x ∈ rest, x.1 < x.2) →
      ((cs, ce) :: rest).Pairwise (fun a b => a.2 < b.1) →
      merge_sweep 0 0 cs ce rest = (cs, ce) :: rest := by
  intro rest
  induction rest with
  | nil =>
    intro cs ce hlt _ _
    simp only [merge_sweep, if_pos (by linarith : (0 : ℚ) ≤ ce - cs)]
  | cons hd tl ih =>
    intro cs ce hlt hmem hpw
    obtain ⟨s, e⟩ := hd
    rw [List.pairwise_cons] at hpw
    have hces : ce < s := hpw.1 (s, e) (List.mem_cons_self _ _)
    have hnle : ¬ s ≤ ce + 0 := by
      rw [add_zero]
      exact not_le.mpr hces
    rw [merge_sweep, if_neg hnle, if_pos (by linarith : (0 : ℚ) ≤ ce - cs),
      List.singleton_append]
    congr 1
    exact ih s e (hmem (s, e) (List.mem_cons_self _ _))
      (fun x hx => hmem x (List.mem_cons_of_mem _ hx)) hpw.2

/-- Padding with zero is the identity on nonnegative-start, positive-length
spans. -/
lemma pad_step_zero : ∀ ys : List (ℚ × ℚ), (∀ y ∈ ys, 0 ≤ y.1 ∧ y.1 < y.2) →
    pad_step ys 0 = ys := by
  intro ys
  induction ys with
  | nil => intro _; rfl
  | cons y tl ih =>
    intro h
    have h1 : 0 ≤ y.1 := (h y (List.mem_cons_self _ _)).1
    have h2 : y.1 < y.2 := (h y (List.mem_cons_self _ _)).2
    have hmax : max 0 (y.1 - 0) = y.1 := by
      rw [sub_zero]
      exact max_eq_right h1
    have hcond : max 0 (y.1 - 0) < y.2 + 0 := by
      rw [hmax, add_zero]
      exact h2
    have ih2 := ih (fun x hx => h x (List.mem_cons_of_mem _ hx))
    simp only [pad_step, List.filterMap_cons] at ih2 ⊢
    rw [if_pos hcond, hmax, add_zero, ih2]

/-- C1 (amended): for a nonnegative `mergeGap`, `pad_and_merge` replaces each
interval by `(max(0, start - padding), end + padding)` and drops it when the
padded end ≤ padded start, then sweep-merges the sorted survivors into a
strictly ascending, non-overlapping sequence of spans each of duration at
least `minDuration`; the `minDuration` filter applies after padding and
merging, so an interval too short alone is dropped but is kept when merging
with a neighbour reaches `minDuration`; the gap rule keeps
`[(0,1),(1.15,2)]` merged at gap `0.2` and separate at gap `0.1`.
(The non-overlap conclusion needs `0 ≤ mergeGap`; see the counterexample.) -/
theorem C1_pad_and_merge_shape (xs : List (ℚ × ℚ)) (p g m : ℚ) (hg : 0 ≤ g) :
    ((pad_and_merge xs p g m).Pairwise (fun a b => a.2 < b.1)
      ∧ (∀ y ∈ pad_and_merge xs p g m, m ≤ y.2 - y.1 ∧ y.1 < y.2 ∧ 0 ≤ y.1))
    ∧ (∀ (s e : ℚ) (ys : List (ℚ × ℚ)), e + p ≤ max 0 (s - p) →
        pad_and_merge ((s, e) :: ys) p g m = pad_and_merge ys p g m)
    ∧ pad_and_merge [(0, 3/100)] 0 0 (1/20) = []
    ∧ pad_and_merge [(0, 3/100), (3/100, 6/100)] 0 0 (1/20) = [(0, 3/50)]
    ∧ pad_and_merge [(0, 1), (23/20, 2)] 0 (1/5) 0 = [(0, 2)]
    ∧ pad_and_merge [(0, 1), (23/20, 2)] 0 (1/10) 0 = [(0, 1), (23/20, 2)] := by
  refine ⟨pad_and_merge_props xs p g m hg, ?_,
    by norm_num [pad_and_merge, pad_step, merge_sweep, List.insertionSort,
      List.orderedInsert, List.filterMap],
    by norm_num [pad_and_merge, pad_step, merge_sweep, List.insertionSort,
      List.orderedInsert, List.filterMap],
    by norm_num [pad_and_merge, pad_step, merge_sweep, List.insertionSort,
      List.orderedInsert, List.filterMap],
    by norm_num [pad_and_merge, pad_step, merge_sweep, List.insertionSort,
      List.orderedInsert, List.filterMap]⟩
  intro s e ys h
  have hdrop : pad_step ((s, e) :: ys) p = pad_step ys p := by
    simp only [pad_step, List.filterMap_cons]
    rw [if_neg (not_lt.mpr h)]
  unfold pad_and_merge
  rw [hdrop]

/-- C1 counterexample: with a negative `mergeGap` the output of
`pad_and_merge` is not non-overlapping — on `[(0,10),(5,6)]` with zero
padding, `mergeGap = -10` and zero `minDuration` the result is
`[(0,10),(5,6)]`, whose second span starts inside the first. -/
theorem C1_pad_and_merge_counterexample :
    pad_and_merge [(0, 10), (5, 6)] 0 (-10) 0 = [(0, 10), (5, 6)]
    ∧ ¬ ((pad_and_merge [(0, 10), (5, 6)] 0 (-10) 0).Pairwise
        (fun a b => a.2 ≤ b.1)) := by
  have h : pad_and_merge [((0 : ℚ), 10), (5, 6)] 0 (-10) 0 = [(0, 10), (5, 6)] := by
    norm_num [pad_and_merge, pad_step, merge_sweep, List.insertionSort,
      List.orderedInsert, List.filterMap]
  refine ⟨h, ?_⟩
  rw [h]
  intro hpw
  rw [List.pairwise_cons] at hpw
  have h2 := hpw.1 (5, 6) (List.mem_cons_self _ _)
  norm_num at h2

/-- C1 witness: the amended theorem applied at a concrete interval list and
nonnegative merge gap, discharging the hypothesis. -/
theorem C1_pad_and_merge_shape_witness :
    ((0 : ℚ) ≤ 0)
    ∧ (pad_and_merge [((0 : ℚ), 1)] 0 0 0).Pairwise (fun a b => a.2 < b.1) :=
  ⟨le_refl 0, (C1_pad_and_merge_shape [((0 : ℚ), 1)] 0 0 0 (le_refl 0)).1.1⟩

/-- C7: `pad_and_merge` is idempotent under re-application with zero
parameters — for nonnegative padding, mergeGap and minDuration, applying
`pad_and_merge` with padding 0, mergeGap 0, minDuration 0 to the output of
`pad_and_merge xs padding mergeGap minDuration` returns it unchanged. -/
theorem C7_pad_and_merge_idempotent (xs : List (ℚ × ℚ)) (p g m : ℚ)
    (hp : 0 ≤ p) (hg : 0 ≤ g) (hm : 0 ≤ m) :
    pad_and_merge (pad_and_merge xs p g m) 0 0 0 = pad_and_merge xs p g m := by
  obtain ⟨hpw, hmem⟩ := pad_and_merge_props xs p g m hg
  have hmem' : ∀ y ∈ pad_and_merge xs p g m, 0 ≤ y.1 ∧ y.1 < y.2 := fun y hy =>
    ⟨(hmem y hy).2.2, (hmem y hy).2.1⟩
  have hsorted : (pad_and_merge xs p g m).Pairwise (fun (a b : ℚ × ℚ) => a.1 ≤ b.1) := by
    refine List.Pairwise.imp_of_mem ?_ hpw
    intro a b ha hb hab
    exact le_of_lt (lt_trans (hmem' a ha).2 hab)
  conv_lhs => rw [pad_and_merge]
  rw [pad_step_zero _ hmem', List.Sorted.insertionSort_eq hsorted]
  cases hys : pad_and_merge xs p g m with
  | nil => rfl
  | cons c rest =>
    rw [hys] at hpw hmem'
    show merge_sweep 0 0 c.1 c.2 rest = c :: rest
    have hc := hmem' c (List.mem_cons_self _ _)
    have hchain : ((c.1, c.2) :: rest).Pairwise (fun a b => a.2 < b.1) := by
      rw [Prod.mk.eta]
      exact hpw
    rw [merge_sweep_chain rest c.1 c.2 hc.2
      (fun x hx => (hmem' x (List.mem_cons_of_mem _ hx)).2) hchain]

/-- C7 witness: idempotence applied at a concrete interval list, discharging
the three nonnegativity hypotheses. -/
theorem C7_pad_and_merge_idempotent_witness :
    ((0 : ℚ) ≤ 0)
    ∧ pad_and_merge (pad_and_merge [((0 : ℚ), 1)] 0 0 0) 0 0 0
        = pad_and_merge [((0 : ℚ), 1)] 0 0 0 :=
  ⟨le_refl 0,
    C7_pad_and_merge_idempotent [((0 : ℚ), 1)] 0 0 0 (le_refl 0) (le_refl 0) (le_refl 0)⟩

/-- C10 witness: the parsed-times clause applied at a concrete block whose
end time precedes its start time, discharging the hypothesis. -/
theorem C10_load_srt_no_time_validation_witness :
    cueOfBlock ("1\n00:00:05,000 --> 00:00:02,000\nhello").data
        = some ⟨parse_time 0 0 5 0, parse_time 0 0 2 0, "hello"⟩
    ∧ ∃ g : ℕ × ℕ × ℕ × ℕ × ℕ × ℕ × ℕ × ℕ,
        time_search (srt_time_line
            (srt_lines ("1\n00:00:05,000 --> 00:00:02,000\nhello").data)) = some g
        ∧ (SubtitleSegment.mk (parse_time 0 0 5 0) (parse_time 0 0 2 0) "hello").start
            = parse_time g.1 g.2.1 g.2.2.1 g.2.2.2.1
        ∧ (SubtitleSegment.mk (parse_time 0 0 5 0) (parse_time 0 0 2 0) "hello").stop
            = parse_time g.2.2.2.2.1 g.2.2.2.2.2.1 g.2.2.2.2.2.2.1 g.2.2.2.2.2.2.2
        ∧ (SubtitleSegment.mk (parse_time 0 0 5 0) (parse_time 0 0 2 0) "hello").text
            = String.mk (srt_text
              (srt_lines ("1\n00:00:05,000 --> 00:00:02,000\nhello").data)) :=
  ⟨rfl,
    C10_load_srt_no_time_validation.2.2.1 ("1\n00:00:05,000 --> 00:00:02,000\nhello").data
      ⟨parse_time 0 0 5 0, parse_time 0 0 2 0, "hello"⟩ rfl⟩
